import Mathlib

/-!
Verification development for the maggma repository.

Part 1 models the distributed work-dispensing protocol (Chunk Planner,
Coordinator, Worker Agent, WorkUnit Codec).  The implementation module
`maggma/cli/distributed.py` is not among the provided sources (only its test
file `tests/cli/test_distributed.py` is), so these definitions are modelled
from the specification, with the concrete payload shapes taken from the test
file (JSON objects carrying `@module` / `@class` keys, `{}` as the terminal
marker).

Part 2 embeds the Store operations from `maggma/core/store.py`
(`query_one`, `distinct`, `last_updated`) together with the concrete
`MemoryStore.groupby` / `MongoStore.query` semantics from
`src/maggma/stores/mongolike.py`, with documents as ordered association
lists and MongoDB find/sort semantics made explicit.
-/

namespace Maggma

/-! ### Generic association lists (Python dicts preserving insertion order) -/

/-- First-match lookup in an association list, the semantics of reading a
Python dict key (insertion order preserved, keys unique in real dicts). -/
def alookup {α : Type} : List (String × α) → String → Option α
  | [], _ => none
  | (k, v) :: rest, q => if k = q then some v else alookup rest q

/-- Set a key in an association list, the semantics of a Python dict
assignment: replace the value in place if the key exists, append otherwise. -/
def aset {α : Type} : List (String × α) → String → α → List (String × α)
  | [], k, v => [(k, v)]
  | (k0, v0) :: rest, k, v =>
    if k0 = k then (k, v) :: rest else (k0, v0) :: aset rest k v

/-- Python `dict.update`: apply every binding of `ov` over `base`, later
bindings overriding earlier ones and base entries keeping their position. -/
def mergeState {α : Type} (base ov : List (String × α)) : List (String × α) :=
  ov.foldl (fun acc kv => aset acc kv.1 kv.2) base

/-- The first defined of two optional values (`a if a is not None else b`). -/
def firstSome {α : Type} : Option α → Option α → Option α
  | some v, _ => some v
  | none, b => b

/-! ### JSON values, WorkUnits and Builders (distributed protocol) -/

/-- A JSON value, the self-describing payload format used on the wire
(`json.dumps` / `json.loads` of nested Python dicts and lists). -/
inductive Json : Type where
  | null : Json
  | bool (b : Bool) : Json
  | num (n : Int) : Json
  | str (s : String) : Json
  | arr (elems : List Json) : Json
  | obj (fields : List (String × Json)) : Json

/-- Reconstruction state of a builder: its constructor keyword arguments. -/
abbrev JState := List (String × Json)

/-- Modelled from the spec: a WorkUnit is one independently executable slice
of a builder job, carrying the builder type identity and the full
reconstruction state with chunk-specific overrides merged in. -/
structure WorkUnit : Type where
  modName : String
  clsName : String
  builder_state : JState

/-- Modelled from the spec: a Builder as seen by the distributed core: its
type identity, its base reconstruction state (constructor arguments) and its
optional partition capability `prechunk`. -/
structure Builder : Type where
  modName : String
  clsName : String
  state : JState
  prechunk : Option (Nat → List JState)

/-! ### WorkUnit Codec (spec section 4.4) -/

/-- A key is metadata (serialization bookkeeping) when it starts with `@`,
as in the `@module` / `@class` keys of the test payloads. -/
def isMeta (k : String) : Bool := k.data.head? == some '@'

/-- Modelled from the spec: encode a WorkUnit as a self-describing JSON
object carrying the builder type identity plus the reconstruction state. -/
def encode (w : WorkUnit) : Json :=
  .obj (("@module", .str w.modName) :: ("@class", .str w.clsName) :: w.builder_state)

/-- The terminal empty marker: an explicit empty object, the `{}` payload
checked by the tests, distinguishable from null or an absent payload. -/
def termMarker : Json := .obj []

/-- Read a JSON string, used for the type-identity keys. -/
def getStr : Option Json → Option String
  | some (.str s) => some s
  | _ => none

/-- Modelled from the spec: decode a payload back into a WorkUnit by reading
the builder type identity from the `@module` / `@class` keys and taking the
remaining non-metadata keys as the reconstruction state; anything else is a
decode failure. -/
def decode (p : Json) : Option WorkUnit :=
  match p with
  | .obj fields =>
    match getStr (alookup fields "@module"), getStr (alookup fields "@class") with
    | some m, some c => some ⟨m, c, fields.filter (fun kv => !(isMeta kv.1))⟩
    | _, _ => none
  | _ => none

/-- A reconstruction state is well formed when none of its keys collide with
the `@`-prefixed metadata keys of the encoding. -/
def stateOk (st : JState) : Prop := ∀ kv ∈ st, isMeta kv.1 = false

instance (st : JState) : Decidable (stateOk st) := by
  unfold stateOk; infer_instance

/-! ### Chunk Planner (spec section 4.1) -/

/-- Diagnostic emitted when a builder has no partition capability; it names
the builder, which is then skipped entirely. -/
def skipDiagnostic (b : Builder) : String :=
  "Cannot distributed process " ++ b.clsName ++ ". Skipping for now"

/-- Modelled from the spec: the Chunk Planner.  For each builder in supplied
order, ask for `numChunks` override mappings via `prechunk`; merge each
override over the builder base state to form one WorkUnit; a builder without
`prechunk` contributes no WorkUnits and one diagnostic naming it. -/
def plan : List Builder → Nat → List WorkUnit × List String
  | [], _ => ([], [])
  | b :: rest, n =>
    match b.prechunk with
    | none => ((plan rest n).1, skipDiagnostic b :: (plan rest n).2)
    | some pc =>
      ((pc n).map (fun ov => ⟨b.modName, b.clsName, mergeState b.state ov⟩)
        ++ (plan rest n).1, (plan rest n).2)

/-! ### Coordinator (spec section 4.2) -/

/-- A coordinator-to-worker payload: either one WorkUnit or the terminal
empty marker.  (On the wire the WorkUnit is passed through `encode` and the
terminal marker is `termMarker`.) -/
inductive Msg : Type where
  | unit (w : WorkUnit) : Msg
  | terminal : Msg

/-- Modelled from the spec: servicing one PullRequest.  If the queue is
non-empty pop the front WorkUnit (FIFO), otherwise answer with the terminal
marker and leave the queue empty. -/
def dispense : List WorkUnit → Msg × List WorkUnit
  | [] => (.terminal, [])
  | w :: ws => (.unit w, ws)

/-- Service `n` PullRequests one at a time, returning the messages sent in
order together with the final queue. -/
def serveN : List WorkUnit → Nat → List Msg × List WorkUnit
  | q, 0 => ([], q)
  | q, n + 1 =>
    ((dispense q).1 :: (serveN (dispense q).2 n).1, (serveN (dispense q).2 n).2)

/-! ### Worker Agent (spec section 4.3) -/

/-- Observable events of one Worker Agent run: PullRequests sent, chunk
executions (successful or failed, failures being logged), decode failures
(logged, chunk abandoned) and the clean exit on the terminal marker. -/
inductive WEvent : Type where
  | pull : WEvent
  | execOk (w : WorkUnit) : WEvent
  | execFail (w : WorkUnit) (e : String) : WEvent
  | decodeFail : WEvent
  | finish : WEvent

/-- Handle one non-terminal payload: decode it and run the chunk through the
given Builder Execution Contract, observing success or logged failure. -/
def stepEvent (ex : WorkUnit → Except String Unit) (p : Json) : WEvent :=
  match decode p with
  | none => .decodeFail
  | some w =>
    match ex w with
    | .ok _ => .execOk w
    | .error e => .execFail w e

/-- Modelled from the spec: the Worker Agent loop over the sequence of
payloads it receives.  Each iteration sends a PullRequest; the terminal
empty marker ends the loop cleanly; any other payload is decoded and
executed (failures logged, never fatal) before looping. -/
def workerTrace (ex : WorkUnit → Except String Unit) : List Json → List WEvent
  | [] => [.pull]
  | p :: rest =>
    match p with
    | .obj [] => [.pull, .finish]
    | .obj (kv :: fs) => .pull :: stepEvent ex (.obj (kv :: fs)) :: workerTrace ex rest
    | .null => .pull :: stepEvent ex .null :: workerTrace ex rest
    | .bool b => .pull :: stepEvent ex (.bool b) :: workerTrace ex rest
    | .num n => .pull :: stepEvent ex (.num n) :: workerTrace ex rest
    | .str s => .pull :: stepEvent ex (.str s) :: workerTrace ex rest
    | .arr xs => .pull :: stepEvent ex (.arr xs) :: workerTrace ex rest

/-- A chunk-execution event (a chunk was run, successfully or not). -/
def isExec : WEvent → Bool
  | .execOk _ => true
  | .execFail _ _ => true
  | _ => false

/-! ### Store documents and values (maggma/core/store.py) -/

/-- A stored field value: null, integer, string, or a datetime (modelled as
an integer timestamp). -/
inductive SVal : Type where
  | vnull : SVal
  | vint (n : Int) : SVal
  | vstr (s : String) : SVal
  | vdt (t : Int) : SVal
deriving DecidableEq

/-- A document: an ordered association list of fields, as returned by
PyMongo / mongomock. -/
abbrev Doc := List (String × SVal)

/-- Python truthiness of a value: None, 0 and the empty string are falsy. -/
def truthy : SVal → Bool
  | .vnull => false
  | .vint n => if n = 0 then false else true
  | .vstr s => if s = "" then false else true
  | .vdt _ => true

/-- The `datetime.min` sentinel returned by `Store.last_updated` for an
empty store or a falsy timestamp (timestamp 0 in this model). -/
def datetimeMin : SVal := .vdt 0

/-- BSON type rank used by MongoDB when comparing values of different
types: Null sorts below numbers, numbers below strings, dates last. -/
def typeRank : SVal → Nat
  | .vnull => 0
  | .vint _ => 1
  | .vstr _ => 2
  | .vdt _ => 3

/-- BSON strict comparison: by type rank across types, by the natural order
within a type. -/
def svalLt (a b : SVal) : Bool :=
  match a, b with
  | .vint x, .vint y => decide (x < y)
  | .vstr x, .vstr y => decide (x < y)
  | .vdt x, .vdt y => decide (x < y)
  | _, _ => decide (typeRank a < typeRank b)

/-! ### Criteria (PyMongo filters restricted to the shapes the claims use) -/

/-- One filter condition on a field: equality to a value, or
`{"$exists": 1}`. -/
inductive Cond : Type where
  | eqv (v : SVal) : Cond
  | present : Cond
deriving DecidableEq

/-- A PyMongo filter document: conditions keyed by field name. -/
abbrev Criteria := List (String × Cond)

/-- MongoDB matching of one condition: equality against the stored value,
where `null` also matches an absent field; `$exists` requires presence. -/
def matchesCond (d : Doc) (k : String) : Cond → Bool
  | .eqv v =>
    match alookup d k with
    | some v2 => v2 == v
    | none => v == SVal.vnull
  | .present => (alookup d k).isSome

/-- A document matches a filter when it satisfies every condition. -/
def matchesCriteria (c : Criteria) (d : Doc) : Bool :=
  c.all fun kc => matchesCond d kc.1 kc.2

/-! ### Query pipeline (MongoStore.query over a collection of documents) -/

/-- Inclusion projection: keep the listed fields plus `_id`, as MongoDB does
for a `{field: 1, ...}` projection; `none` returns the whole document. -/
def project (props : Option (List String)) (d : Doc) : Doc :=
  match props with
  | none => d
  | some ps => d.filter fun kv => ps.contains kv.1 || kv.1 == "_id"

/-- Sort direction, from the `Sort` enum in maggma/core/store.py. -/
inductive SortDir : Type where
  | asc : SortDir
  | desc : SortDir

/-- The sort key of a document for a field: its value, with an absent field
sorting as null (MongoDB semantics). -/
def sortKeyOf (f : String) (d : Doc) : SVal := (alookup d f).getD .vnull

/-- Insert a document into a list sorted descending by a field key,
before the first strictly smaller key. -/
def insertDesc (f : String) (d : Doc) : List Doc → List Doc
  | [] => [d]
  | e :: es =>
    if svalLt (sortKeyOf f e) (sortKeyOf f d) then d :: e :: es
    else e :: insertDesc f d es

/-- Sort documents descending by a field. -/
def sortDescBy (f : String) : List Doc → List Doc
  | [] => []
  | d :: ds => insertDesc f d (sortDescBy f ds)

/-- Insert a document into a list sorted ascending by a field key. -/
def insertAsc (f : String) (d : Doc) : List Doc → List Doc
  | [] => [d]
  | e :: es =>
    if svalLt (sortKeyOf f d) (sortKeyOf f e) then d :: e :: es
    else e :: insertAsc f d es

/-- Sort documents ascending by a field. -/
def sortAscBy (f : String) : List Doc → List Doc
  | [] => []
  | d :: ds => insertAsc f d (sortAscBy f ds)

/-- Apply an optional single-field sort specification. -/
def applySort (s : Option (String × SortDir)) (ds : List Doc) : List Doc :=
  match s with
  | none => ds
  | some (f, .desc) => sortDescBy f ds
  | some (f, .asc) => sortAscBy f ds

/-- The skip/limit window of a cursor, a limit of 0 meaning no limit. -/
def window (skip limit : Nat) (l : List Doc) : List Doc :=
  if limit = 0 then l.drop skip else (l.drop skip).take limit

/-- Embeds `MongoStore.query`: `collection.find(filter, projection, skip, limit,
sort)` — filter, then sort, then skip, then limit (0 meaning no limit),
projecting each returned document. -/
def query (docs : List Doc) (criteria : Criteria) (properties : Option (List String))
    (s : Option (String × SortDir)) (skip limit : Nat) : List Doc :=
  (window skip limit (applySort s (docs.filter (matchesCriteria criteria)))).map
    (project properties)

/-- Embeds `Store.query_one`: `next(self.query(criteria=criteria), None)` — the
first document yielded by `query` with default projection, sort, skip and
limit, or `none` when the query yields nothing. -/
def query_one (docs : List Doc) (criteria : Criteria) : Option Doc :=
  (query docs criteria none none 0 0).head?

/-! ### groupby (MemoryStore.groupby) and distinct (Store.distinct) -/

/-- The grouping key of a document: the tuple of its values at the group
fields, `pydash.get` returning `none` for an absent field. -/
def gkey (keys : List String) (d : Doc) : List (Option SVal) :=
  keys.map fun k => alookup d k

/-- Strict order on optional sort values, `none` first. -/
def optLt : Option SVal → Option SVal → Bool
  | none, none => false
  | none, some _ => true
  | some _, none => false
  | some a, some b => svalLt a b

/-- Lexicographic strict order on grouping keys, the order Python `sorted`
uses on the key tuples. -/
def gkLt : List (Option SVal) → List (Option SVal) → Bool
  | [], [] => false
  | [], _ :: _ => true
  | _ :: _, [] => false
  | a :: xs, b :: ys => if optLt a b then true else if optLt b a then false else gkLt xs ys

/-- Stable insertion into a list sorted ascending by grouping key. -/
def insertByGk (keys : List String) (d : Doc) : List Doc → List Doc
  | [] => [d]
  | e :: es =>
    if gkLt (gkey keys d) (gkey keys e) then d :: e :: es
    else e :: insertByGk keys d es

/-- Embeds `sorted(data, key=grouping_keys)`: stable sort by grouping key. -/
def sortByGk (keys : List String) : List Doc → List Doc
  | [] => []
  | d :: ds => insertByGk keys d (sortByGk keys ds)

/-- Accumulate maximal runs of equal grouping keys (`itertools.groupby` on a
sorted list), carrying the current key and the current run reversed. -/
def runsAux (keys : List String) :
    List Doc → List (Option SVal) → List Doc → List (List (Option SVal) × List Doc)
  | [], k, run => [(k, run.reverse)]
  | d :: ds, k, run =>
    if gkey keys d = k then runsAux keys ds k (d :: run)
    else (k, run.reverse) :: runsAux keys ds (gkey keys d) [d]

/-- Embeds `itertools.groupby(sorted_data, key=grouping_keys)`: the runs of equal
grouping keys together with their key. -/
def groupRuns (keys : List String) : List Doc → List (List (Option SVal) × List Doc)
  | [] => []
  | d :: ds => runsAux keys ds (gkey keys d) [d]

/-- Rebuild the key document of a group: `set_(doc, k, v)` for each group
field and its key value (an absent value setting Python `None`). -/
def buildKeyDoc (keys : List String) (gk : List (Option SVal)) : Doc :=
  (keys.zip gk).foldl (fun acc kv => aset acc kv.1 (kv.2.getD .vnull)) []

/-- The data list of `MemoryStore.groupby`: the queried documents that
carry every group field (`all(has(doc, k) for k in keys)`). -/
def groupbyData (docs : List Doc) (keys : List String) (criteria : Criteria)
    (properties : Option (List String)) : List Doc :=
  (query docs criteria properties none 0 0).filter
    fun d => keys.all fun k => (alookup d k).isSome

/-- Embeds `MemoryStore.groupby`: query with the group fields as projection, keep
only documents carrying every group field, sort by grouping key, and yield
each run as a rebuilt key document with its list of documents. -/
def groupby (docs : List Doc) (keys : List String) (criteria : Criteria)
    (properties : Option (List String)) : List (Doc × List Doc) :=
  (groupRuns keys (sortByGk keys (groupbyData docs keys criteria properties))).map
    fun r => (buildKeyDoc keys r.1, r.2)

/-- The criteria `Store.distinct` passes to `groupby`: when `all_exist` is
set, a `{"$exists": 1}` condition is added for every requested field not
already constrained. -/
def distinctCriteria (fields : List String) (criteria : Criteria) (all_exist : Bool) :
    Criteria :=
  if all_exist then
    criteria ++ (fields.filter fun f => !(criteria.any fun kc => kc.1 == f)).map
      fun f => (f, Cond.present)
  else criteria

/-- Embeds `Store.distinct`: the group keys of `groupby` over the requested fields,
with the `$exists` constraints added when `all_exist` is set. -/
def distinct (docs : List Doc) (fields : List String) (criteria : Criteria)
    (all_exist : Bool) : List Doc :=
  (groupby docs fields (distinctCriteria fields criteria all_exist) (some fields)).map
    Prod.fst

/-! ### last_updated (Store.last_updated) -/

/-- The StoreError message raised when the newest document lacks the
configured last-updated field. -/
def storeErrMsg : String := "No last_updated field in store document"

/-- Embeds `Store.last_updated`: query the newest document (projected to the
last-updated field, sorted descending, limit 1); raise StoreError when that
document is truthy but lacks the field; return its value when truthy, and
`datetime.min` otherwise (no document, or falsy value).  The default
datetime `_lu_func` (the identity) is modelled. -/
def last_updated (luf : String) (docs : List Doc) : Except String SVal :=
  match (query docs [] (some [luf]) (some (luf, SortDir.desc)) 0 1).head? with
  | none => .ok datetimeMin
  | some doc =>
    if doc ≠ [] ∧ (alookup doc luf).isNone then .error storeErrMsg
    else if doc ≠ [] ∧ truthy ((alookup doc luf).getD .vnull) then
      .ok ((alookup doc luf).getD .vnull)
    else .ok datetimeMin

/-! ### Concrete examples used by the witnesses -/

/-- The partition capability of the test DummyBuilder:
`[{"val": i} for i in range(num_chunks)]`. -/
def pcEx : Nat → List JState := fun n => (List.range n).map fun i => [("val", Json.num i)]

/-- The test DummyBuilder: base state from its constructor arguments, with
the prechunk capability above. -/
def bEx : Builder :=
  ⟨"tests.cli.test_distributed", "DummyBuilder",
    [("dummy_prechunk", Json.bool false), ("val", Json.num (-1))], some pcEx⟩

/-- A non-partitionable builder, as DummyBuilderWithNoPrechunk in the test. -/
def bNoPc : Builder :=
  ⟨"tests.cli.test_distributed", "DummyBuilderWithNoPrechunk",
    [("dummy_prechunk", Json.bool false), ("val", Json.num (-1))], none⟩

/-- A WorkUnit with a nested non-primitive value in its state. -/
def wEx : WorkUnit :=
  ⟨"tests.cli.test_distributed", "DummyBuilder",
    [("dummy_prechunk", Json.bool false), ("val", Json.num 0),
     ("meta", Json.obj [("xs", Json.arr [Json.num 1, Json.str "a", Json.null])])]⟩

/-- A plain WorkUnit. -/
def wEx2 : WorkUnit := ⟨"m", "B1", [("val", Json.num 1)]⟩

/-- Another plain WorkUnit. -/
def wEx3 : WorkUnit := ⟨"m", "B1", [("val", Json.num 2)]⟩

/-- A Builder Execution Contract that always succeeds. -/
def execAlwaysOk : WorkUnit → Except String Unit := fun _ => Except.ok ()

/-- A Builder Execution Contract that always raises during processing. -/
def execAlwaysFail : WorkUnit → Except String Unit := fun _ => Except.error "boom"

/-! ### Association-list lemmas -/

theorem alookup_aset {α : Type} (l : List (String × α)) (k q : String) (v : α) :
    alookup (aset l k v) q = if q = k then some v else alookup l q := by
  induction l with
  | nil =>
    by_cases hq : q = k
    · simp [aset, alookup, hq]
    · simp [aset, alookup, hq, Ne.symm hq]
  | cons kv rest ih =>
    obtain ⟨k0, v0⟩ := kv
    by_cases hk : k0 = k
    · subst hk
      by_cases hq : q = k0
      · simp [aset, alookup, hq]
      · simp [aset, alookup, hq, Ne.symm hq]
    · by_cases hq : q = k0
      · subst hq
        have hqk : ¬ q = k := fun h => hk (h ▸ rfl)
        simp [aset, alookup, hk, hqk]
      · simp [aset, alookup, hk, Ne.symm hq, hq, ih]

theorem alookup_eq_none_of_not_mem_keys {α : Type} (l : List (String × α)) (q : String)
    (h : q ∉ l.map Prod.fst) : alookup l q = none := by
  induction l with
  | nil => rfl
  | cons kv rest ih =>
    obtain ⟨k0, v0⟩ := kv
    have h1 : ¬ k0 = q := by
      intro hh
      exact h (by simp [hh])
    have h2 : q ∉ rest.map Prod.fst := by
      intro hm
      exact h (by simp [hm])
    simp [alookup, h1, ih h2]

theorem alookup_mergeState {α : Type} (ov : List (String × α)) (base : List (String × α))
    (q : String) (hnd : (ov.map Prod.fst).Nodup) :
    alookup (mergeState base ov) q = firstSome (alookup ov q) (alookup base q) := by
  induction ov generalizing base with
  | nil => rfl
  | cons kv rest ih =>
    obtain ⟨k0, v0⟩ := kv
    have hnd' : k0 ∉ rest.map Prod.fst ∧ (rest.map Prod.fst).Nodup :=
      List.nodup_cons.mp (by simpa using hnd)
    have step : mergeState base ((k0, v0) :: rest) = mergeState (aset base k0 v0) rest := rfl
    rw [step, ih (aset base k0 v0) hnd'.2]
    by_cases hq : q = k0
    · subst hq
      rw [alookup_eq_none_of_not_mem_keys rest q hnd'.1]
      simp [alookup, firstSome, alookup_aset]
    · have hne : ¬ k0 = q := Ne.symm hq
      cases halt : alookup rest q with
      | none => simp [alookup, firstSome, hne, halt, alookup_aset, hq]
      | some v => simp [alookup, firstSome, hne, halt]

/-! ### Codec lemmas and claim C4 -/

theorem decode_encode (w : WorkUnit) (h : stateOk w.builder_state) :
    decode (encode w) = some w := by
  have h1 : (("@module", Json.str w.modName) :: ("@class", Json.str w.clsName)
      :: w.builder_state).filter (fun kv => !(isMeta kv.1)) = w.builder_state := by
    rw [List.filter_cons_of_neg, List.filter_cons_of_neg]
    · exact List.filter_eq_self.mpr fun kv hm => by rw [h kv hm]; rfl
    · simp [isMeta]
    · simp [isMeta]
  simp [decode, encode, alookup, getStr, h1]

/-- C4. Codec round-trip law: for every WorkUnit whose reconstruction state
does not use the reserved metadata keys, decoding the encoding yields the
same builder type identity and the same full reconstruction state,
including nested non-primitive values. -/
theorem codec_round_trip (w : WorkUnit) (h : ∀ kv ∈ w.builder_state, isMeta kv.1 = false) :
    decode (encode w) = some w :=
  decode_encode w h

/-- Witness for C4 at a WorkUnit with a nested non-primitive state value. -/
theorem codec_round_trip_witness : decode (encode wEx) = some wEx :=
  codec_round_trip wEx (by decide)

/-! ### Chunk Planner: claim C3 -/

/-- C3. Planner count law: the number of WorkUnits enqueued equals the sum,
over builders supporting partitioning, of the number of override mappings
each returns from prechunk; builders without partitioning contribute zero
WorkUnits and exactly one diagnostic naming them, in order. -/
theorem plan_count_law (B : List Builder) (n : Nat) :
    (plan B n).1.length
      = (B.map fun b => match b.prechunk with | some pc => (pc n).length | none => 0).sum
    ∧ (plan B n).2 = (B.filter fun b => b.prechunk.isNone).map skipDiagnostic := by
  induction B with
  | nil => exact ⟨rfl, rfl⟩
  | cons b rest ih =>
    cases hb : b.prechunk with
    | none =>
      refine ⟨?_, ?_⟩
      · simpa [plan, hb] using ih.1
      · simp [plan, hb, ih.2, List.filter_cons]
    | some pc =>
      refine ⟨?_, ?_⟩
      · simp [plan, hb, ih.1]
      · simp [plan, hb, ih.2, List.filter_cons]

/-! ### Coordinator: claims C1 and C2 -/

theorem serveN_get (q : List WorkUnit) (n i : Nat) (hi : i < n) (hq : i < q.length) :
    (serveN q n).1.get? i = some (Msg.unit (q.get ⟨i, hq⟩)) := by
  induction n generalizing q i with
  | zero => exact absurd hi (Nat.not_lt_zero i)
  | succ n ih =>
    cases q with
    | nil => exact absurd hq (by simp)
    | cons w ws =>
      cases i with
      | zero => rfl
      | succ i =>
        have hi2 : i < n := Nat.lt_of_succ_lt_succ hi
        have hq2 : i < ws.length := Nat.lt_of_succ_lt_succ hq
        simpa [serveN, dispense] using ih ws i hi2 hq2

/-- C1. FIFO dispense order: serving PullRequests one at a time from the
queue produced by the Chunk Planner, the i-th message dispensed is exactly
the i-th WorkUnit of the planner output sequence. -/
theorem coordinator_fifo (B : List Builder) (N n i : Nat) (hi : i < n)
    (hq : i < (plan B N).1.length) :
    (serveN (plan B N).1 n).1.get? i = some (Msg.unit ((plan B N).1.get ⟨i, hq⟩)) :=
  serveN_get (plan B N).1 n i hi hq

/-- Witness for C1: the second of three messages served from the test
campaign (one DummyBuilder, two chunks) is the second planned WorkUnit. -/
theorem coordinator_fifo_witness :
    ∃ w, (serveN (plan [bEx] 2).1 3).1.get? 1 = some (Msg.unit w) :=
  ⟨_, coordinator_fifo [bEx] 2 3 1 (by decide) (by decide)⟩

/-- C2. Idempotence of exhaustion: serving any number of PullRequests from
an empty queue answers every one of them with the terminal marker, and the
queue stays empty (the exhausted state never reverts). -/
theorem exhaustion_idempotent (n : Nat) :
    serveN [] n = (List.replicate n Msg.terminal, []) := by
  induction n with
  | zero => rfl
  | succ n ih => simp [serveN, dispense, ih, List.replicate]

/-! ### Override precedence: claim C5 -/

/-- C5. Override precedence: for a partitionable builder, the j-th WorkUnit
built from it carries the j-th override mapping merged over the builder
base constructor-argument state, and looking up any key prefers the
override over the base configuration. -/
theorem override_precedence (b : Builder) (pc : Nat → List JState) (N j : Nat)
    (hb : b.prechunk = some pc) (hj : j < (pc N).length)
    (hnd : (((pc N).get ⟨j, hj⟩).map Prod.fst).Nodup) :
    (plan [b] N).1.get? j
      = some ⟨b.modName, b.clsName, mergeState b.state ((pc N).get ⟨j, hj⟩)⟩
    ∧ ∀ k, alookup (mergeState b.state ((pc N).get ⟨j, hj⟩)) k
        = firstSome (alookup ((pc N).get ⟨j, hj⟩) k) (alookup b.state k) := by
  constructor
  · have h1 : (plan [b] N).1
        = (pc N).map fun ov => ⟨b.modName, b.clsName, mergeState b.state ov⟩ := by
      simp [plan, hb]
    rw [h1, List.get?_map, List.get?_eq_get hj]
    rfl
  · intro k
    exact alookup_mergeState _ _ _ hnd

/-- Witness for C5 at the test DummyBuilder with two chunks. -/
theorem override_precedence_witness :
    ∃ u, (plan [bEx] 2).1.get? 0 = some u :=
  ⟨_, (override_precedence bEx pcEx 2 0 rfl (by decide) (by decide)).1⟩

/-! ### Worker Agent lemmas and claims C6 and C7 -/

theorem workerTrace_head (ex : WorkUnit → Except String Unit) (ms : List Json) :
    ∃ t, workerTrace ex ms = WEvent.pull :: t := by
  cases ms with
  | nil => exact ⟨[], rfl⟩
  | cons p rest =>
    cases p with
    | obj fields =>
      cases fields with
      | nil => exact ⟨[WEvent.finish], rfl⟩
      | cons kv fs => exact ⟨_, rfl⟩
    | null => exact ⟨_, rfl⟩
    | bool b => exact ⟨_, rfl⟩
    | num n => exact ⟨_, rfl⟩
    | str s => exact ⟨_, rfl⟩
    | arr xs => exact ⟨_, rfl⟩

theorem workerTrace_encode_cons (ex : WorkUnit → Except String Unit) (w : WorkUnit)
    (rest : List Json) :
    workerTrace ex (encode w :: rest)
      = WEvent.pull :: stepEvent ex (encode w) :: workerTrace ex rest := rfl

theorem stepEvent_isExec (ex : WorkUnit → Except String Unit) (w : WorkUnit)
    (h : stateOk w.builder_state) : isExec (stepEvent ex (encode w)) = true := by
  unfold stepEvent
  rw [decode_encode w h]
  cases hex : ex w <;> simp [hex, isExec]

/-- C6. Worker termination: for a response sequence of n WorkUnits followed
by the terminal empty marker, the Worker Agent loop executes exactly n
chunks and its trace ends with the clean exit event on the terminal
marker. -/
theorem worker_termination (ex : WorkUnit → Except String Unit) (us : List WorkUnit)
    (rest : List Json) (h : ∀ w ∈ us, stateOk w.builder_state) :
    (workerTrace ex (us.map encode ++ termMarker :: rest)).countP isExec = us.length
    ∧ (workerTrace ex (us.map encode ++ termMarker :: rest)).getLast?
        = some WEvent.finish := by
  induction us with
  | nil => exact ⟨rfl, rfl⟩
  | cons u us ih =>
    have hu : stateOk u.builder_state := h u (List.mem_cons_self _ _)
    have hrest : ∀ w ∈ us, stateOk w.builder_state :=
      fun w hw => h w (List.mem_cons_of_mem _ hw)
    have e1 : (u :: us).map encode ++ termMarker :: rest
        = encode u :: (us.map encode ++ termMarker :: rest) := rfl
    rw [e1, workerTrace_encode_cons]
    obtain ⟨t, ht⟩ := workerTrace_head ex (us.map encode ++ termMarker :: rest)
    refine ⟨?_, ?_⟩
    · have hp : isExec WEvent.pull = false := rfl
      simp [List.countP_cons, stepEvent_isExec ex u hu, hp, (ih hrest).1]
    · rw [List.getLast?_cons_cons, ht, List.getLast?_cons_cons, ← ht]
      exact (ih hrest).2

/-- Witness for C6: two WorkUnits then the terminal marker give exactly two
chunk executions and a clean exit. -/
theorem worker_termination_witness :
    (workerTrace execAlwaysOk ([wEx2, wEx3].map encode ++ termMarker :: [])).countP isExec
      = [wEx2, wEx3].length
    ∧ (workerTrace execAlwaysOk ([wEx2, wEx3].map encode ++ termMarker :: [])).getLast?
        = some WEvent.finish :=
  worker_termination execAlwaysOk [wEx2, wEx3] [] (by decide)

/-- C7. Chunk failure is non-fatal: when executing a received chunk raises,
the Worker Agent records the failure (with the builder chunk and the error),
does not terminate its loop — the trace continues exactly as a fresh loop
over the remaining responses — does not retry the chunk, and the very next
event it emits is the next PullRequest. -/
theorem chunk_failure_nonfatal (ex : WorkUnit → Except String Unit) (w : WorkUnit)
    (e : String) (rest : List Json) (hw : stateOk w.builder_state)
    (he : ex w = .error e) :
    workerTrace ex (encode w :: rest)
      = WEvent.pull :: WEvent.execFail w e :: workerTrace ex rest
    ∧ (workerTrace ex rest).head? = some WEvent.pull := by
  constructor
  · rw [workerTrace_encode_cons]
    simp [stepEvent, decode_encode w hw, he]
  · obtain ⟨t, ht⟩ := workerTrace_head ex rest
    rw [ht]
    rfl

/-- Witness for C7: a failing chunk is logged and the loop still pulls. -/
theorem chunk_failure_nonfatal_witness :
    workerTrace execAlwaysFail (encode wEx2 :: [termMarker])
      = WEvent.pull :: WEvent.execFail wEx2 "boom" :: workerTrace execAlwaysFail [termMarker]
    ∧ (workerTrace execAlwaysFail [termMarker]).head? = some WEvent.pull :=
  chunk_failure_nonfatal execAlwaysFail wEx2 "boom" [termMarker] (by decide) rfl

/-! ### Store.query_one: claim C8 -/

/-- C8. `Store.query_one` is the first document yielded by `query` and in
particular returns `none` (rather than raising) exactly when no document in
the store matches the criteria; any returned document is a matching stored
document. -/
theorem query_one_spec (docs : List Doc) (c : Criteria) :
    query_one docs c = (query docs c none none 0 0).head?
    ∧ (query_one docs c = none ↔ ∀ d ∈ docs, matchesCriteria c d = false)
    ∧ ∀ d, query_one docs c = some d → d ∈ docs ∧ matchesCriteria c d = true := by
  have hpn : ∀ l : List Doc, l.map (project none) = l := by
    intro l
    induction l with
    | nil => rfl
    | cons d ds ih => simp [project, ih]
  have hq : query docs c none none 0 0 = docs.filter (matchesCriteria c) := by
    simp [query, applySort, window, hpn]
  refine ⟨rfl, ?_, ?_⟩
  · rw [query_one, hq, List.head?_eq_none_iff, List.filter_eq_nil_iff]
    simp
  · intro d hd
    rw [query_one, hq] at hd
    have hmem : d ∈ docs.filter (matchesCriteria c) :=
      List.mem_of_mem_head? (Option.mem_def.mpr hd)
    exact List.mem_filter.mp hmem

/-- Witness for C8: a criteria matching no stored document yields `none`. -/
theorem query_one_spec_witness :
    query_one [[("_id", SVal.vint 1), ("a", SVal.vint 1)]] [("a", Cond.eqv (SVal.vint 3))]
      = none :=
  (query_one_spec [[("_id", SVal.vint 1), ("a", SVal.vint 1)]]
    [("a", Cond.eqv (SVal.vint 3))]).2.1.mpr (by decide)

/-! ### Store.distinct and MemoryStore.groupby: claim C9 -/

theorem mem_of_mem_insertByGk (keys : List String) (d x : Doc) (l : List Doc)
    (h : x ∈ insertByGk keys d l) : x = d ∨ x ∈ l := by
  induction l with
  | nil =>
    simp only [insertByGk, List.mem_singleton] at h
    exact Or.inl h
  | cons e es ih =>
    simp only [insertByGk] at h
    split at h
    · rcases List.mem_cons.mp h with h1 | h2
      · exact Or.inl h1
      · exact Or.inr h2
    · rcases List.mem_cons.mp h with h1 | h2
      · exact Or.inr (h1 ▸ List.mem_cons_self e es)
      · rcases ih h2 with h3 | h4
        · exact Or.inl h3
        · exact Or.inr (List.mem_cons_of_mem e h4)

theorem mem_of_mem_sortByGk (keys : List String) (x : Doc) (l : List Doc)
    (h : x ∈ sortByGk keys l) : x ∈ l := by
  induction l with
  | nil => simpa [sortByGk] using h
  | cons e es ih =>
    simp only [sortByGk] at h
    rcases mem_of_mem_insertByGk keys e x (sortByGk keys es) h with h1 | h2
    · exact h1 ▸ List.mem_cons_self e es
    · exact List.mem_cons_of_mem e (ih h2)

theorem mem_of_mem_runsAux (keys : List String) (l : List Doc) (k : List (Option SVal))
    (run : List Doc) (p : List (Option SVal) × List Doc) (hp : p ∈ runsAux keys l k run)
    (d : Doc) (hd : d ∈ p.2) : d ∈ run ∨ d ∈ l := by
  induction l generalizing k run with
  | nil =>
    simp only [runsAux, List.mem_singleton] at hp
    subst hp
    simp only [List.mem_reverse] at hd
    exact Or.inl hd
  | cons e es ih =>
    simp only [runsAux] at hp
    split at hp
    · rcases ih _ _ hp with h1 | h2
      · rcases List.mem_cons.mp h1 with he | hr
        · exact Or.inr (he ▸ List.mem_cons_self e es)
        · exact Or.inl hr
      · exact Or.inr (List.mem_cons_of_mem e h2)
    · rcases List.mem_cons.mp hp with h1 | h2
      · subst h1
        simp only [List.mem_reverse] at hd
        exact Or.inl hd
      · rcases ih _ _ h2 with h1 | h2'
        · have hde := List.mem_singleton.mp h1
          exact Or.inr (hde ▸ List.mem_cons_self e es)
        · exact Or.inr (List.mem_cons_of_mem e h2')

theorem mem_of_mem_groupRuns (keys : List String) (l : List Doc)
    (p : List (Option SVal) × List Doc) (hp : p ∈ groupRuns keys l) (d : Doc)
    (hd : d ∈ p.2) : d ∈ l := by
  cases l with
  | nil => simp [groupRuns] at hp
  | cons e es =>
    rcases mem_of_mem_runsAux keys es (gkey keys e) [e] p hp d hd with h1 | h2
    · have hde := List.mem_singleton.mp h1
      exact hde ▸ List.mem_cons_self e es
    · exact List.mem_cons_of_mem e h2

theorem groupby_member_fields (docs : List Doc) (keys : List String) (criteria : Criteria)
    (properties : Option (List String)) (p : Doc × List Doc)
    (hp : p ∈ groupby docs keys criteria properties) (d : Doc) (hd : d ∈ p.2)
    (f : String) (hf : f ∈ keys) : (alookup d f).isSome = true := by
  rcases List.mem_map.mp hp with ⟨r, hr, hrp⟩
  have hd2 : d ∈ r.2 := by
    rw [← hrp] at hd
    exact hd
  have hsorted : d ∈ sortByGk keys (groupbyData docs keys criteria properties) :=
    mem_of_mem_groupRuns keys _ r hr d hd2
  have hdata : d ∈ groupbyData docs keys criteria properties :=
    mem_of_mem_sortByGk keys d _ hsorted
  have hfil := (List.mem_filter.mp hdata).2
  exact List.all_eq_true.mp hfil f hf

/-- C9. `Store.distinct` returns exactly the sequence of group keys produced
by `groupby` over the same fields and criteria, with `$exists` constraints
added for each field when `all_exist` is set; and every document appearing
in any group carries every requested field, so a document missing a
requested field contributes no distinct value. -/
theorem distinct_groupby_spec (docs : List Doc) (fields : List String) (c : Criteria)
    (ae : Bool) :
    distinct docs fields c ae
      = (groupby docs fields (distinctCriteria fields c ae) (some fields)).map Prod.fst
    ∧ ∀ p ∈ groupby docs fields (distinctCriteria fields c ae) (some fields),
        ∀ d ∈ p.2, ∀ f ∈ fields, (alookup d f).isSome = true :=
  ⟨rfl, fun p hp d hd f hf =>
    groupby_member_fields docs fields (distinctCriteria fields c ae) (some fields)
      p hp d hd f hf⟩

/-- Witness for C9: in a store where one document lacks the requested field,
the single group consists of the document carrying it. -/
theorem distinct_groupby_spec_witness :
    (alookup [("_id", SVal.vint 1), ("a", SVal.vint 1)] "a").isSome = true :=
  (distinct_groupby_spec [[("_id", SVal.vint 1), ("a", SVal.vint 1)], [("_id", SVal.vint 2)]]
      ["a"] [] false).2
    ([("a", SVal.vint 1)], [[("_id", SVal.vint 1), ("a", SVal.vint 1)]]) (by decide)
    [("_id", SVal.vint 1), ("a", SVal.vint 1)] (by decide) "a" (by decide)

/-! ### Store.last_updated: claim C10 -/

theorem project_cons (ps : List String) (k0 : String) (v0 : SVal) (rest : Doc) :
    project (some ps) ((k0, v0) :: rest)
      = if ps.contains k0 || (k0 == "_id") then (k0, v0) :: project (some ps) rest
        else project (some ps) rest := by
  simp only [project]
  rw [List.filter_cons]

theorem alookup_project (ps : List String) (d : Doc) (f : String)
    (hf : ps.contains f = true) :
    alookup (project (some ps) d) f = alookup d f := by
  induction d with
  | nil => rfl
  | cons kv rest ih =>
    obtain ⟨k0, v0⟩ := kv
    rw [project_cons]
    by_cases hk : k0 = f
    · subst hk
      rw [if_pos (by rw [hf]; rfl)]
      simp [alookup]
    · by_cases hkeep : (ps.contains k0 || (k0 == "_id")) = true
      · rw [if_pos hkeep]
        simp only [alookup, if_neg hk]
        exact ih
      · rw [if_neg hkeep]
        rw [ih]
        simp [alookup, hk]

theorem project_ne_nil_of_id (ps : List String) (d : Doc)
    (h : (alookup d "_id").isSome = true) : project (some ps) d ≠ [] := by
  induction d with
  | nil => simp [alookup] at h
  | cons kv rest ih =>
    obtain ⟨k0, v0⟩ := kv
    rw [project_cons]
    by_cases hk : k0 = "_id"
    · rw [if_pos (by rw [hk]; simp)]
      exact List.cons_ne_nil _ _
    · have h2 : (alookup rest "_id").isSome = true := by
        simpa [alookup, hk] using h
      by_cases hkeep : (ps.contains k0 || (k0 == "_id")) = true
      · rw [if_pos hkeep]
        exact List.cons_ne_nil _ _
      · rw [if_neg hkeep]
        exact ih h2

theorem mem_of_mem_insertDesc (f : String) (d x : Doc) (l : List Doc)
    (h : x ∈ insertDesc f d l) : x = d ∨ x ∈ l := by
  induction l with
  | nil =>
    simp only [insertDesc, List.mem_singleton] at h
    exact Or.inl h
  | cons e es ih =>
    simp only [insertDesc] at h
    split at h
    · rcases List.mem_cons.mp h with h1 | h2
      · exact Or.inl h1
      · exact Or.inr h2
    · rcases List.mem_cons.mp h with h1 | h2
      · exact Or.inr (h1 ▸ List.mem_cons_self e es)
      · rcases ih h2 with h3 | h4
        · exact Or.inl h3
        · exact Or.inr (List.mem_cons_of_mem e h4)

theorem mem_of_mem_sortDescBy (f : String) (x : Doc) (l : List Doc)
    (h : x ∈ sortDescBy f l) : x ∈ l := by
  induction l with
  | nil => simpa [sortDescBy] using h
  | cons e es ih =>
    simp only [sortDescBy] at h
    rcases mem_of_mem_insertDesc f e x (sortDescBy f es) h with h1 | h2
    · exact h1 ▸ List.mem_cons_self e es
    · exact List.mem_cons_of_mem e (ih h2)

theorem query_lu_head (luf : String) (docs : List Doc) :
    (query docs [] (some [luf]) (some (luf, SortDir.desc)) 0 1).head?
      = (sortDescBy luf docs).head?.map (project (some [luf])) := by
  have hfilt : docs.filter (matchesCriteria []) = docs :=
    List.filter_eq_self.mpr fun d hd => rfl
  unfold query
  rw [hfilt]
  have ha : applySort (some (luf, SortDir.desc)) docs = sortDescBy luf docs := rfl
  rw [ha]
  cases sortDescBy luf docs with
  | nil => rfl
  | cons d ds => rfl

theorem last_updated_eq_of_head (luf : String) (docs : List Doc) (doc : Doc)
    (hqq : (query docs [] (some [luf]) (some (luf, SortDir.desc)) 0 1).head?
      = some doc) :
    last_updated luf docs
      = if doc ≠ [] ∧ (alookup doc luf).isNone then Except.error storeErrMsg
        else if doc ≠ [] ∧ truthy ((alookup doc luf).getD SVal.vnull) then
          Except.ok ((alookup doc luf).getD SVal.vnull)
        else Except.ok datetimeMin := by
  unfold last_updated
  rw [hqq]

/-- C10. `Store.last_updated` returns `datetime.min` when the store has no
documents or when the newest document (by descending last-updated order)
has a falsy value there, and raises StoreError exactly when that newest
document exists but lacks the configured last-updated field; a truthy value
is returned as is. -/
theorem last_updated_spec (luf : String) (docs : List Doc)
    (hid : ∀ d ∈ docs, (alookup d "_id").isSome = true) :
    (docs = [] → last_updated luf docs = .ok datetimeMin)
    ∧ ∀ nd, (sortDescBy luf docs).head? = some nd →
        ((last_updated luf docs = .error storeErrMsg) ↔ alookup nd luf = none)
        ∧ (∀ v, alookup nd luf = some v → truthy v = false →
            last_updated luf docs = .ok datetimeMin)
        ∧ (∀ v, alookup nd luf = some v → truthy v = true →
            last_updated luf docs = .ok v) := by
  constructor
  · intro h
    subst h
    rfl
  · intro nd hnd
    have hmem : nd ∈ docs :=
      mem_of_mem_sortDescBy luf nd docs (List.mem_of_mem_head? (Option.mem_def.mpr hnd))
    have hlu : alookup (project (some [luf]) nd) luf = alookup nd luf :=
      alookup_project [luf] nd luf (by simp)
    have hne : project (some [luf]) nd ≠ [] :=
      project_ne_nil_of_id [luf] nd (hid nd hmem)
    have hqq : (query docs [] (some [luf]) (some (luf, SortDir.desc)) 0 1).head?
        = some (project (some [luf]) nd) := by
      rw [query_lu_head, hnd]
      rfl
    rw [last_updated_eq_of_head luf docs (project (some [luf]) nd) hqq]
    cases halu : alookup nd luf with
    | none =>
      have hcond : project (some [luf]) nd ≠ []
          ∧ (alookup (project (some [luf]) nd) luf).isNone := by
        refine ⟨hne, ?_⟩
        rw [hlu, halu]
        rfl
      rw [if_pos hcond]
      refine ⟨⟨fun _ => rfl, fun _ => rfl⟩, ?_, ?_⟩
      · intro v hv
        cases hv
      · intro v hv
        cases hv
    | some v =>
      have hcond : ¬ (project (some [luf]) nd ≠ []
          ∧ (alookup (project (some [luf]) nd) luf).isNone) := by
        intro hc
        rw [hlu, halu] at hc
        cases hc.2
      rw [if_neg hcond]
      cases htr : truthy v with
      | false =>
        have hc2 : ¬ (project (some [luf]) nd ≠ []
            ∧ truthy ((alookup (project (some [luf]) nd) luf).getD SVal.vnull) = true) := by
          intro hc
          rw [hlu, halu] at hc
          simp only [Option.getD_some] at hc
          rw [htr] at hc
          cases hc.2
        rw [if_neg (by simpa using hc2)]
        refine ⟨iff_of_false (by simp) (by simp), ?_, ?_⟩
        · intro v2 hv2 htr2
          rfl
        · intro v2 hv2 htr2
          cases hv2
          rw [htr] at htr2
          cases htr2
      | true =>
        have hc2 : project (some [luf]) nd ≠ []
            ∧ truthy ((alookup (project (some [luf]) nd) luf).getD SVal.vnull) = true := by
          refine ⟨hne, ?_⟩
          rw [hlu, halu]
          simpa using htr
        rw [if_pos (by simpa using hc2)]
        have hval : (alookup (project (some [luf]) nd) luf).getD SVal.vnull = v := by
          rw [hlu, halu]
          rfl
        rw [hval]
        refine ⟨iff_of_false (by simp) (by simp), ?_, ?_⟩
        · intro v2 hv2 htr2
          cases hv2
          rw [htr] at htr2
          cases htr2
        · intro v2 hv2 htr2
          cases hv2
          rfl

/-- Witness for C10: one document whose last-updated value is null (falsy)
yields `datetime.min`. -/
theorem last_updated_spec_witness :
    last_updated "lu" [[("_id", SVal.vint 1), ("lu", SVal.vnull)]] = .ok datetimeMin :=
  (((last_updated_spec "lu" [[("_id", SVal.vint 1), ("lu", SVal.vnull)]] (by decide)).2
      [("_id", SVal.vint 1), ("lu", SVal.vnull)] (by decide)).2.1)
    SVal.vnull (by decide) (by decide)

end Maggma
